import Mathlib

/-!
Verification of the pyStocks metric-derivation pipeline.

Shallow embedding of the code in `pyStocks/stock/` (fundamentals.py,
growth.py, valuation.py, utils.py and the thin wrappers in core.py).

Modelling conventions:
* A pandas cell value is `Val`: `na` models NaN/null, `num q` models a
  finite float as an exact rational, `inf`/`negInf` model IEEE infinities
  (signed zero is not modelled; no claim here depends on it), and `str`
  models the string-valued cells (timestamps) that only the valuation
  builder touches.
* Arithmetic follows numpy/pandas elementwise semantics: any operation
  with a NaN operand is NaN; division of a nonzero finite value by zero
  is a signed infinity, 0/0 is NaN, and no exception is ever raised.
* A DataFrame is `Table`: an ordered list of column names plus rows,
  each row a (index label, cells) pair with cells in column order.
* `df[keys]` on a frame missing one of `keys` raises; this fatal error
  is modelled as `Except.error (PyError.missingField k)`.
* Rounding to 2 decimals uses round-half-to-even, as numpy does.
-/

namespace PyStocks

/-! ### Kernel-computable rational arithmetic

`Rat`'s own `+ - * /` normalize through `Nat.gcd`, whose well-founded
recursion the kernel cannot unfold, so concrete pipeline runs could not be
checked by `rfl`/`decide`. The wrappers below compute the same rationals
through a fuel-based gcd (provably equal to `Nat.gcd`) and are proved
equal to the standard operations, which the general theorems use. -/

def gcdF : Nat → Nat → Nat → Nat
  | 0, _, n => n
  | fuel + 1, m, n => if m = 0 then n else gcdF fuel (n % m) m

def myGcd (m n : Nat) : Nat := gcdF (m + 1) m n

theorem gcdF_eq : ∀ fuel m n, m < fuel → gcdF fuel m n = Nat.gcd m n := by
  intro fuel
  induction fuel with
  | zero => intro m n h; omega
  | succ f ih =>
      intro m n h
      by_cases hm : m = 0
      · subst hm
        simp [gcdF]
      · rw [show gcdF (f + 1) m n = gcdF f (n % m) m by simp [gcdF, hm]]
        rw [ih (n % m) m (by
          have h1 : n % m < m := Nat.mod_lt n (Nat.pos_of_ne_zero hm)
          omega)]
        exact (Nat.gcd_rec m n).symm

theorem myGcd_eq (m n : Nat) : myGcd m n = Nat.gcd m n :=
  gcdF_eq (m + 1) m n (Nat.lt_succ_self m)

/-- `mkRat` with the computable gcd. -/
def mkQ (num : ℤ) (den : ℕ) : ℚ :=
  if den_nz : den = 0 then { num := 0 }
  else
    Rat.maybeNormalize num den (myGcd num.natAbs den)
      (Rat.normalize.den_nz den_nz (myGcd_eq num.natAbs den))
      (Rat.normalize.reduced den_nz (myGcd_eq num.natAbs den))

theorem mkQ_eq_mkRat (num : ℤ) (den : ℕ) : mkQ num den = mkRat num den := by
  unfold mkQ mkRat Rat.normalize
  by_cases h : den = 0
  · simp [h]
  · simp only [dif_neg h]
    congr 1
    exact myGcd_eq num.natAbs den

theorem mkQ_eq_div (num : ℤ) (den : ℕ) : mkQ num den = (num : ℚ) / (den : ℚ) := by
  rw [mkQ_eq_mkRat, Rat.mkRat_eq_divInt, Rat.divInt_eq_div]
  norm_cast

def qsub (a b : ℚ) : ℚ := mkQ (a.num * b.den - b.num * a.den) (a.den * b.den)

def qmul (a b : ℚ) : ℚ := mkQ (a.num * b.num) (a.den * b.den)

def qdiv (a b : ℚ) : ℚ :=
  if 0 ≤ b.num then mkQ (a.num * (b.den : ℤ)) (a.den * b.num.natAbs)
  else mkQ (-(a.num * (b.den : ℤ))) (a.den * b.num.natAbs)

theorem qsub_eq (a b : ℚ) : qsub a b = a - b := by
  rw [qsub, mkQ_eq_div]
  have ha : ((a.den : ℚ)) ≠ 0 := Nat.cast_ne_zero.mpr a.den_nz
  have hb : ((b.den : ℚ)) ≠ 0 := Nat.cast_ne_zero.mpr b.den_nz
  conv_rhs => rw [← Rat.num_div_den a, ← Rat.num_div_den b]
  push_cast
  field_simp
  try ring

theorem qmul_eq (a b : ℚ) : qmul a b = a * b := by
  rw [qmul, mkQ_eq_div]
  have ha : ((a.den : ℚ)) ≠ 0 := Nat.cast_ne_zero.mpr a.den_nz
  have hb : ((b.den : ℚ)) ≠ 0 := Nat.cast_ne_zero.mpr b.den_nz
  conv_rhs => rw [← Rat.num_div_den a, ← Rat.num_div_den b]
  push_cast
  field_simp
  try ring

theorem qdiv_eq (a b : ℚ) : qdiv a b = a / b := by
  by_cases hb0 : b.num = 0
  · have hb : b = 0 := Rat.num_eq_zero.mp hb0
    subst hb
    rw [qdiv]
    norm_num [mkQ_eq_div]
  · have hbq : b ≠ 0 := fun h => hb0 (by rw [h]; rfl)
    have ha : ((a.den : ℚ)) ≠ 0 := Nat.cast_ne_zero.mpr a.den_nz
    have hbden : ((b.den : ℚ)) ≠ 0 := Nat.cast_ne_zero.mpr b.den_nz
    have hbnum : ((b.num : ℚ)) ≠ 0 := Int.cast_ne_zero.mpr hb0
    rcases le_or_lt 0 b.num with hsgn | hsgn
    · rw [qdiv, if_pos hsgn, mkQ_eq_div]
      have habs : ((b.num.natAbs : ℕ) : ℚ) = (b.num : ℚ) := by
        rw [Int.cast_natAbs]
        exact_mod_cast abs_of_nonneg hsgn
      push_cast
      rw [habs]
      conv_rhs => rw [← Rat.num_div_den a, ← Rat.num_div_den b]
      field_simp
      try ring
    · rw [qdiv, if_neg (not_le.mpr hsgn), mkQ_eq_div]
      have habs : ((b.num.natAbs : ℕ) : ℚ) = -(b.num : ℚ) := by
        rw [Int.cast_natAbs]
        exact_mod_cast abs_of_neg hsgn
      push_cast
      rw [habs]
      conv_rhs => rw [← Rat.num_div_den a, ← Rat.num_div_den b]
      field_simp
      try ring

/-- `⌊x⌋` computably: `Int` division (`Int.ediv`) floors for a positive
denominator. -/
def ratFloor (x : ℚ) : ℤ := x.num / (x.den : ℤ)

theorem ratFloor_eq (x : ℚ) : ratFloor x = ⌊x⌋ := Rat.floor_def.symm

inductive Val where
  | na : Val
  | num : ℚ → Val
  | inf : Val
  | negInf : Val
  | str : String → Val
deriving DecidableEq

def Val.isNA : Val → Bool
  | .na => true
  | _ => false

def Val.neg : Val → Val
  | .num q => .num (-q)
  | .inf => .negInf
  | .negInf => .inf
  | _ => .na

def Val.sub : Val → Val → Val
  | .num a, .num b => .num (qsub a b)
  | .num _, .inf => .negInf
  | .num _, .negInf => .inf
  | .inf, .num _ => .inf
  | .inf, .negInf => .inf
  | .negInf, .num _ => .negInf
  | .negInf, .inf => .negInf
  | _, _ => .na

def Val.mul : Val → Val → Val
  | .num a, .num b => .num (qmul a b)
  | .num a, .inf => if 0 < a then .inf else if a < 0 then .negInf else .na
  | .num a, .negInf => if 0 < a then .negInf else if a < 0 then .inf else .na
  | .inf, .num b => if 0 < b then .inf else if b < 0 then .negInf else .na
  | .negInf, .num b => if 0 < b then .negInf else if b < 0 then .inf else .na
  | .inf, .inf => .inf
  | .inf, .negInf => .negInf
  | .negInf, .inf => .negInf
  | .negInf, .negInf => .inf
  | _, _ => .na

def Val.div : Val → Val → Val
  | .num a, .num b =>
      if b = 0 then (if 0 < a then .inf else if a < 0 then .negInf else .na)
      else .num (qdiv a b)
  | .num _, .inf => .num 0
  | .num _, .negInf => .num 0
  | .inf, .num b => if 0 ≤ b then .inf else .negInf
  | .negInf, .num b => if 0 ≤ b then .negInf else .inf
  | _, _ => .na

/-- Round a rational to the nearest integer, ties to even (numpy rounding). -/
def roundHalfEven (x : ℚ) : ℤ :=
  if qsub x (ratFloor x : ℚ) < mkQ 1 2 then ratFloor x
  else if mkQ 1 2 < qsub x (ratFloor x : ℚ) then ratFloor x + 1
  else if ratFloor x % 2 = 0 then ratFloor x else ratFloor x + 1

/-- `round(2)` on a cell: finite values go to the nearest multiple of 1/100
(ties to even); NaN and infinities are unchanged. -/
def Val.round2 : Val → Val
  | .num q => .num (mkQ (roundHalfEven (qmul q 100)) 100)
  | v => v

structure Table where
  colNames : List String
  rows : List (String × List Val)
deriving DecidableEq

def Table.labels (t : Table) : List String := t.rows.map Prod.fst

inductive PyError where
  | missingField : String → PyError
deriving DecidableEq

/-- `df[keys]`: project onto `keys`, in that order; a key absent from the
frame's columns is a fatal error (pandas `KeyError`, the spec's
`MissingFieldError`). -/
def Table.select (t : Table) (keys : List String) : Except PyError Table :=
  match keys.find? (fun k => !(t.colNames.contains k)) with
  | some k => .error (.missingField k)
  | none =>
      .ok { colNames := keys,
            rows := t.rows.map (fun r =>
              (r.1, keys.map (fun k =>
                match t.colNames.indexOf? k with
                | some i => r.2.getD i .na
                | none => .na))) }

/-- `df.dropna()`: drop every row containing a NaN. -/
def Table.dropna (t : Table) : Table :=
  { t with rows := t.rows.filter (fun r => !(r.2.any Val.isNA)) }

/-- `df.dropna(how='all')`: drop rows in which every cell is NaN. -/
def Table.dropnaAll (t : Table) : Table :=
  { t with rows := t.rows.filter (fun r => !(r.2.all Val.isNA)) }

/-- `df.rename(columns=...)` as a total renaming function on names. -/
def Table.rename (t : Table) (f : String → String) : Table :=
  { t with colNames := t.colNames.map f }

/-- Look up a cell of a row by column name (used only after the selection
step has guaranteed the column exists). -/
def Table.cellOf (t : Table) (cells : List Val) (c : String) : Val :=
  match t.colNames.indexOf? c with
  | some i => cells.getD i .na
  | none => .na

/-- `df[c] = <elementwise expression of the row>`: overwrite the column in
place if present, else append it on the right, as pandas assignment does. -/
def Table.setCol (t : Table) (c : String) (f : List Val → Val) : Table :=
  match t.colNames.indexOf? c with
  | some i =>
      { t with rows := t.rows.map (fun r => (r.1, r.2.set i (f r.2))) }
  | none =>
      { colNames := t.colNames ++ [c],
        rows := t.rows.map (fun r => (r.1, r.2 ++ [f r.2])) }

def Table.mapVals (t : Table) (f : Val → Val) : Table :=
  { t with rows := t.rows.map (fun r => (r.1, r.2.map f)) }

def Table.lookupRow (t : Table) (l : String) : Option (List Val) :=
  (t.rows.find? (fun r => r.1 = l)).map Prod.snd

def Table.rowOrNA (t : Table) (l : String) : List Val :=
  match t.lookupRow l with
  | some cs => cs
  | none => List.replicate t.colNames.length .na

def dedupAux (seen : List String) : List String → List String
  | [] => []
  | x :: xs =>
      if seen.contains x then dedupAux seen xs
      else x :: dedupAux (x :: seen) xs

/-- `pd.concat(ts, axis=1)` (outer join on the index): the union of the
index labels, each row holding each table's cells at that label, or NaN
padding where a table lacks the label. -/
def concatOuter (ts : List Table) : Table :=
  { colNames := ts.flatMap Table.colNames,
    rows := (dedupAux [] (ts.flatMap Table.labels)).map (fun l =>
      (l, ts.flatMap (fun t => t.rowOrNA l))) }

/-- Lexicographic order on strings by code point — the order `sort_index`
uses on a string index (`String.lt`, stated computably on the character
lists). -/
def lexLt : List Char → List Char → Bool
  | [], [] => false
  | [], _ :: _ => true
  | _ :: _, [] => false
  | a :: as, b :: bs => if a < b then true else if a = b then lexLt as bs else false

def strLt (a b : String) : Bool := lexLt a.data b.data

def insertRow (x : String × List Val) : List (String × List Val) → List (String × List Val)
  | [] => [x]
  | y :: ys => if strLt x.1 y.1 then x :: y :: ys else y :: insertRow x ys

def sortRows : List (String × List Val) → List (String × List Val)
  | [] => []
  | r :: rs => insertRow r (sortRows rs)

/-- `df.sort_index()`: sort rows by index label (lexicographic order on the
date strings, which coincides with chronological order for ISO dates). -/
def Table.sortIndex (t : Table) : Table :=
  { t with rows := sortRows t.rows }

/-! ### utils.py: the name humanizer `split_camel_case` -/

def isUp (c : Char) : Bool := decide ('A' ≤ c) && decide (c ≤ 'Z')

def isLow (c : Char) : Bool := decide ('a' ≤ c) && decide (c ≤ 'z')

def isDig (c : Char) : Bool := decide ('0' ≤ c) && decide (c ≤ '9')

/-- First regex pass, `re.sub(r'([A-Z]+)([A-Z][a-z])', r'\1 \2', name)`:
scan left to right accumulating the current run of uppercase letters; when
a run of length ≥ 2 is immediately followed by a lowercase letter, the
leftmost-greedy match consumes the run plus the lowercase letter and a
space is inserted before the run's last letter; scanning resumes after the
consumed text. -/
def pass1Go (run : List Char) : List Char → List Char
  | [] => run
  | c :: rest =>
      if isUp c then pass1Go (run ++ [c]) rest
      else if isLow c then
        (if 2 ≤ run.length then run.dropLast ++ [' ', run.getLastD 'A']
         else run) ++ c :: pass1Go [] rest
      else run ++ c :: pass1Go [] rest

def pass1 (l : List Char) : List Char := pass1Go [] l

/-- Second regex pass, `re.sub(r'([a-z\d])([A-Z])', r'\1 \2', name)`:
insert a space at every lowercase-or-digit to uppercase boundary;
each match consumes both characters, so scanning resumes after them. -/
def pass2 : List Char → List Char
  | [] => []
  | [c] => [c]
  | a :: b :: rest =>
      if (isLow a || isDig a) && isUp b then a :: ' ' :: b :: pass2 rest
      else a :: pass2 (b :: rest)

def split_camel_case (s : String) : String :=
  String.mk (pass2 (pass1 s.data))

/-! ### fundamentals.py -/

def incomeKeys : List String :=
  ["TotalRevenue", "GrossProfit", "OperatingIncome", "NetIncome"]

def extract_income_stmt_metrics (df : Table) : Except PyError Table :=
  (df.select incomeKeys).map Table.dropna

def cashflowKeys : List String :=
  ["FreeCashFlow", "CapitalExpenditure", "StockBasedCompensation"]

def extract_cashflow_stmt_metrics (df : Table) : Except PyError Table :=
  (df.select cashflowKeys).map (fun t =>
    let out := t.dropna
    let out2 := out.setCol "CapitalExpenditure"
      (fun cs => (out.cellOf cs "CapitalExpenditure").neg)
    out2.dropna)

def balanceKeys : List String := ["CashAndCashEquivalents", "TotalDebt"]

def extract_balance_sheet_metrics (df : Table) : Except PyError Table :=
  (df.select balanceKeys).map (fun t =>
    let out := (t.dropna).rename
      (fun c => if c = "CashAndCashEquivalents" then "Cash" else c)
    let out2 := out.setCol "DebtToCash"
      (fun cs => (out.cellOf cs "TotalDebt").div (out.cellOf cs "Cash"))
    out2.dropna)

/-- The body of `build_fundamentals` after the three extractions: stitch
with `pd.concat(axis=1)`, add the four margin columns (each a per-row
division by `TotalRevenue`), humanize the column names, sort by date. -/
def assembleFundamentals (inc cf bs : Table) : Table :=
  let df := concatOuter [inc, cf, bs]
  let d1 := df.setCol "GrossMargin"
    (fun cs => (df.cellOf cs "GrossProfit").div (df.cellOf cs "TotalRevenue"))
  let d2 := d1.setCol "OperatingMargin"
    (fun cs => (df.cellOf cs "OperatingIncome").div (df.cellOf cs "TotalRevenue"))
  let d3 := d2.setCol "NetMargin"
    (fun cs => (df.cellOf cs "NetIncome").div (df.cellOf cs "TotalRevenue"))
  let d4 := d3.setCol "FreeCashFlowMargin"
    (fun cs => (df.cellOf cs "FreeCashFlow").div (df.cellOf cs "TotalRevenue"))
  (d4.rename split_camel_case).sortIndex

def build_fundamentals (income_stmt cashflow_stmt balance_sheet : Table) :
    Except PyError Table := do
  let inc ← extract_income_stmt_metrics income_stmt
  let cf ← extract_cashflow_stmt_metrics cashflow_stmt
  let bs ← extract_balance_sheet_metrics balance_sheet
  return assembleFundamentals inc cf bs

/-- The caller in core.py, `Stock.fundamentals`:
`build_fundamentals(...).dropna()`. -/
def stock_fundamentals (income_stmt cashflow_stmt balance_sheet : Table) :
    Except PyError Table :=
  (build_fundamentals income_stmt cashflow_stmt balance_sheet).map Table.dropna

/-! ### growth.py -/

/-- `Series.shift(p)` over the whole column. -/
def shiftList (p : Nat) (v : List Val) : List Val :=
  (List.replicate p Val.na ++ v).take v.length

/-- One cell of a margin column's output before rounding is
`(value - lagged value) * 100`; this is the rounded cell. -/
def bpsCell (a b : Val) : Val := ((a.sub b).mul (Val.num 100)).round2

/-- One cell of a non-margin column's output: pandas `pct_change` computes
`value / lagged value - 1` (no forward-filling of nulls, the resolved
default of `fill_method`); times 100, then rounded. -/
def pctCell (a b : Val) : Val :=
  (((a.div b).sub (Val.num 1)).mul (Val.num 100)).round2

/-- Python's `c.endswith(post)`: `post.data` is a suffix of `c.data`.
(`String.endsWith` itself is avoided only because its byte-position loop
does not reduce inside the kernel; this is the same Boolean.) -/
def strEndsWith (c post : String) : Bool := List.isSuffixOf post.data c.data

def growthName (c : String) : String :=
  if strEndsWith c "Margin" then c ++ " Change (bps)" else c ++ " Growth (%)"

def growthColVals (p : Nat) (c : String) (v : List Val) : List Val :=
  if strEndsWith c "Margin" then List.zipWith bpsCell v (shiftList p v)
  else List.zipWith pctCell v (shiftList p v)

/-- The growth frame before the final `dropna(how='all')`:
one output column per input column, in input order. -/
def growthCols (df : Table) (p : Nat) : List (List Val) :=
  (List.range df.colNames.length).map (fun i =>
    growthColVals p (df.colNames.getD i "") (df.rows.map (fun r => r.2.getD i .na)))

def growthRaw (df : Table) (p : Nat) : Table :=
  { colNames := df.colNames.map growthName,
    rows := (List.range df.rows.length).map (fun j =>
      ((df.rows.getD j ("", [])).1, (growthCols df p).map (fun cv => cv.getD j Val.na))) }

def compute_growth (df : Table) (p : Nat := 1) : Table :=
  (growthRaw df p).dropnaAll

/-! ### growth.py: the scalar `cagr` helper

`cagr` is a plain Python float computation, `(end / start) ** (1.0 / periods)
- 1.0`. Python scalar semantics: division by zero raises
`ZeroDivisionError`; `x ** y` with negative `x` and non-integral `y`
returns a complex number; otherwise the result is a real number, modelled
exactly with `Real.rpow`. -/

inductive PyFloatResult where
  | val : ℝ → PyFloatResult
  | zeroDivisionError : PyFloatResult
  | complexResult : PyFloatResult

open Classical in
/-- Python's float `x ** y`. -/
noncomputable def pyPow (x y : ℝ) : PyFloatResult :=
  if x = 0 ∧ y < 0 then .zeroDivisionError
  else if x < 0 ∧ ¬ (∃ n : ℤ, y = (n : ℝ)) then .complexResult
  else .val (Real.rpow x y)

noncomputable def cagr (start endv : ℝ) (periods : ℤ) : PyFloatResult :=
  if start = 0 ∨ periods = 0 then .zeroDivisionError
  else
    match pyPow (endv / start) (1 / (periods : ℝ)) with
    | .val r => .val (r - 1)
    | e => e

/-! ### valuation.py -/

/-- `pd.to_datetime(cell).strftime('%Y-%m-%d')` for a timestamp cell,
modelled on ISO-formatted timestamp strings: the date is the first ten
characters. -/
def dateOnly : Val → String
  | .str s => String.mk (s.data.take 10)
  | _ => ""

/-- Re-index the frame by the date part of its `asOfDate` column. -/
def reindexByDate (df : Table) : Table :=
  { df with rows := df.rows.map (fun r => (dateOnly (df.cellOf r.2 "asOfDate"), r.2)) }

/-- `df.drop(columns=[c for c in cs if c in df.columns])`: remove the named
columns (and their cells, positionally) wherever present. -/
def Table.dropCols (t : Table) (cs : List String) : Table :=
  { colNames := t.colNames.filter (fun c => !(cs.contains c)),
    rows := t.rows.map (fun r =>
      (r.1, ((t.colNames.zip r.2).filter (fun p => !(cs.contains p.1))).map Prod.snd)) }

def valuationRename (c : String) : String :=
  if c = "PeRatio" then "P/E"
  else if c = "ForwardPeRatio" then "Forward P/E"
  else if c = "PsRatio" then "P/S"
  else if c = "PbRatio" then "P/B"
  else if c = "EnterprisesValueEBITDARatio" then "EV/EBITDA"
  else if c = "EnterprisesValueRevenueRatio" then "EV/Revenue"
  else c

def valuationKeys : List String :=
  ["P/E", "Forward P/E", "P/S", "P/B", "EV/EBITDA", "EV/Revenue"]

/-! ### Auxiliary predicates for the humanizer

`noLU l` holds when the second regex pass has no match in `l`;
`noUUL l` holds when the first regex pass has no match in `l` (a match of
`([A-Z]+)([A-Z][a-z])` exists exactly when some uppercase pair is
immediately followed by a lowercase letter). -/

def noLU : List Char → Bool
  | a :: b :: rest => !((isLow a || isDig a) && isUp b) && noLU (b :: rest)
  | _ => true

def noUUL : List Char → Bool
  | a :: b :: c :: rest => !(isUp a && isUp b && isLow c) && noUUL (b :: c :: rest)
  | _ => true

def build_valuation (df : Table) : Except PyError Table :=
  if df.colNames.contains "asOfDate" then
    (((((reindexByDate df).dropCols
        ["asOfDate", "periodType", "marketCap", "enterpriseValue"]).rename
          valuationRename).select valuationKeys).map
      (fun t => (t.mapVals Val.round2).dropna))
  else .error (.missingField "asOfDate")

/-! ## Lemmas: character classes -/

theorem isLow_of_up {c : Char} (h : isUp c = true) : isLow c = false := by
  cases hl : isLow c with
  | false => rfl
  | true =>
      have h2 : c ≤ 'Z' := by
        simp only [isUp, Bool.and_eq_true, decide_eq_true_eq] at h
        exact h.2
      have h3 : 'a' ≤ c := by
        simp only [isLow, Bool.and_eq_true, decide_eq_true_eq] at hl
        exact hl.1
      exact absurd (le_trans h3 h2) (by decide)

theorem isDig_of_up {c : Char} (h : isUp c = true) : isDig c = false := by
  cases hl : isDig c with
  | false => rfl
  | true =>
      have h2 : 'A' ≤ c := by
        simp only [isUp, Bool.and_eq_true, decide_eq_true_eq] at h
        exact h.1
      have h3 : c ≤ '9' := by
        simp only [isDig, Bool.and_eq_true, decide_eq_true_eq] at hl
        exact hl.2
      exact absurd (le_trans h2 h3) (by decide)

theorem isUp_of_low {c : Char} (h : isLow c = true) : isUp c = false := by
  cases hu : isUp c with
  | false => rfl
  | true => exact absurd h (by simp [isLow_of_up hu])

theorem isUp_of_dig {c : Char} (h : isDig c = true) : isUp c = false := by
  cases hu : isUp c with
  | false => rfl
  | true => exact absurd h (by simp [isDig_of_up hu])

theorem isUp_of_lowdig {c : Char} (h : (isLow c || isDig c) = true) :
    isUp c = false := by
  rcases Bool.or_eq_true_iff.mp h with h1 | h1
  · exact isUp_of_low h1
  · exact isUp_of_dig h1

/-! ## Lemmas: `noUUL` -/

theorem noUUL_tail {a : Char} {t : List Char} (h : noUUL (a :: t) = true) :
    noUUL t = true := by
  match t with
  | [] => rfl
  | [b] => rfl
  | b :: c :: t' =>
      simp only [noUUL, Bool.and_eq_true] at h
      exact h.2

theorem noUUL_cons_notUp {x : Char} {t : List Char} (hx : isUp x = false)
    (ht : noUUL t = true) : noUUL (x :: t) = true := by
  match t with
  | [] => rfl
  | [b] => rfl
  | b :: c :: t' =>
      simp only [noUUL, Bool.and_eq_true, Bool.not_eq_true', hx]
      exact ⟨by simp, ht⟩

theorem noUUL_cons_midNotUp {a b : Char} {t : List Char} (hb : isUp b = false)
    (ht : noUUL (b :: t) = true) : noUUL (a :: b :: t) = true := by
  match t with
  | [] => rfl
  | c :: t' =>
      simp only [noUUL, Bool.and_eq_true, Bool.not_eq_true', hb]
      refine ⟨by simp, ?_⟩
      simpa only [noUUL] using ht

theorem noUUL_allUp {run : List Char} (h : run.all isUp = true) :
    noUUL run = true := by
  induction run with
  | nil => rfl
  | cons a run' ih =>
      simp only [List.all_cons, Bool.and_eq_true] at h
      match run' with
      | [] => rfl
      | [b] => rfl
      | b :: c :: run'' =>
          have hc : isUp c = true := by
            have := h.2
            simp only [List.all_cons, Bool.and_eq_true] at this
            exact this.2.1
          simp only [noUUL, Bool.and_eq_true, Bool.not_eq_true', isLow_of_up hc]
          exact ⟨by simp, ih h.2⟩

theorem noUUL_append_right {xs ys : List Char}
    (h : noUUL (xs ++ ys) = true) : noUUL ys = true := by
  induction xs with
  | nil => simpa using h
  | cons a xs' ih => exact ih (noUUL_tail (by simpa using h))

theorem noUUL_allUp_append {D : List Char} (hD : D.all isUp = true)
    {x : Char} {rest : List Char} (hxu : isUp x = false) (hxl : isLow x = false)
    (ht : noUUL (x :: rest) = true) : noUUL (D ++ x :: rest) = true := by
  induction D with
  | nil => simpa using ht
  | cons d D' ih =>
      simp only [List.all_cons, Bool.and_eq_true] at hD
      have hrec := ih hD.2
      cases D' with
      | nil => exact noUUL_cons_midNotUp hxu (by simpa using hrec)
      | cons d2 D'' =>
          cases D'' with
          | nil =>
              simp only [List.cons_append, List.nil_append] at hrec ⊢
              simp only [noUUL, Bool.and_eq_true, Bool.not_eq_true', hxl]
              exact ⟨by simp, by simpa only [noUUL] using hrec⟩
          | cons d3 D''' =>
              have h3 : isUp d3 = true := by
                have := hD.2
                simp only [List.all_cons, Bool.and_eq_true] at this
                exact this.2.1
              simp only [List.cons_append] at hrec ⊢
              simp only [noUUL, Bool.and_eq_true, Bool.not_eq_true',
                isLow_of_up h3]
              exact ⟨by simp, by simpa only [noUUL, List.cons_append] using hrec⟩

theorem noUUL_run_low {run : List Char} (hall : run.all isUp = true)
    (h2 : 2 ≤ run.length) {c : Char} (hc : isLow c = true)
    (rest : List Char) : noUUL (run ++ c :: rest) = false := by
  induction run with
  | nil => simp at h2
  | cons a run' ih =>
      simp only [List.all_cons, Bool.and_eq_true] at hall
      cases run' with
      | nil => simp at h2
      | cons b run'' =>
          have hb : isUp b = true := by
            have := hall.2
            simp only [List.all_cons, Bool.and_eq_true] at this
            exact this.1
          cases run'' with
          | nil =>
              simp [noUUL, hall.1, hb, hc]
          | cons d run''' =>
              have htail := ih hall.2 (by simp)
              simp only [List.cons_append] at htail ⊢
              simp only [noUUL, Bool.and_eq_false_iff]
              right
              simpa only [List.cons_append] using htail

/-! ## Lemmas: the first pass -/

theorem allUp_getLastD {run : List Char} {d : Char} (hall : run.all isUp = true)
    (hd : isUp d = true) : isUp (run.getLastD d) = true := by
  induction run generalizing d with
  | nil => exact hd
  | cons a run' ih =>
      simp only [List.all_cons, Bool.and_eq_true] at hall
      rw [List.getLastD_cons]
      exact ih hall.2 hall.1

theorem allUp_dropLast {run : List Char} (hall : run.all isUp = true) :
    run.dropLast.all isUp = true := by
  rw [List.all_eq_true] at hall ⊢
  exact fun x hx => hall x ((List.dropLast_sublist run).subset hx)

theorem pass1Go_noUUL (l : List Char) : ∀ run : List Char,
    run.all isUp = true → noUUL (pass1Go run l) = true := by
  induction l with
  | nil => intro run hall; exact noUUL_allUp hall
  | cons c rest ih =>
      intro run hall
      by_cases hu : isUp c = true
      · rw [show pass1Go run (c :: rest) = pass1Go (run ++ [c]) rest by
          simp [pass1Go, hu]]
        exact ih (run ++ [c]) (by simp [List.all_append, hall, hu])
      · have hu' : isUp c = false := by simpa using hu
        have hM : noUUL (pass1Go [] rest) = true := ih [] rfl
        by_cases hl : isLow c = true
        · by_cases hlen : 2 ≤ run.length
          · rw [show pass1Go run (c :: rest) =
                run.dropLast ++ ' ' :: run.getLastD 'A' :: c :: pass1Go [] rest by
              simp [pass1Go, hu', hl, hlen]]
            refine noUUL_allUp_append (allUp_dropLast hall) (by decide) (by decide) ?_
            refine noUUL_cons_notUp (by decide) ?_
            exact noUUL_cons_midNotUp hu' (noUUL_cons_notUp hu' hM)
          · rw [show pass1Go run (c :: rest) = run ++ c :: pass1Go [] rest by
              simp [pass1Go, hu', hl, hlen]]
            match run, hlen with
            | [], _ => exact noUUL_cons_notUp hu' hM
            | [u], _ =>
                exact noUUL_cons_midNotUp hu' (noUUL_cons_notUp hu' hM)
            | u :: v :: run', hlen => exact absurd (by simp) hlen
        · have hl' : isLow c = false := by simpa using hl
          rw [show pass1Go run (c :: rest) = run ++ c :: pass1Go [] rest by
            simp [pass1Go, hu', hl']]
          exact noUUL_allUp_append hall hu' hl' (noUUL_cons_notUp hu' hM)

theorem pass1Go_id (l : List Char) : ∀ run : List Char,
    run.all isUp = true → noUUL (run ++ l) = true → pass1Go run l = run ++ l := by
  induction l with
  | nil => intro run _ _; simp [pass1Go]
  | cons c rest ih =>
      intro run hall h
      by_cases hu : isUp c = true
      · rw [show pass1Go run (c :: rest) = pass1Go (run ++ [c]) rest by
          simp [pass1Go, hu]]
        rw [ih (run ++ [c]) (by simp [List.all_append, hall, hu])
          (by simpa [List.append_assoc] using h)]
        simp
      · have hu' : isUp c = false := by simpa using hu
        have hrest : noUUL rest = true :=
          noUUL_tail (noUUL_append_right h)
        by_cases hl : isLow c = true
        · have hlen : ¬ 2 ≤ run.length := by
            intro hlen
            rw [noUUL_run_low hall hlen hl rest] at h
            exact Bool.false_ne_true h
          rw [show pass1Go run (c :: rest) = run ++ c :: pass1Go [] rest by
            simp [pass1Go, hu', hl, hlen]]
          rw [ih [] rfl (by simpa using hrest)]
          simp
        · have hl' : isLow c = false := by simpa using hl
          rw [show pass1Go run (c :: rest) = run ++ c :: pass1Go [] rest by
            simp [pass1Go, hu', hl']]
          rw [ih [] rfl (by simpa using hrest)]
          simp

/-! ## Lemmas: the second pass -/

theorem andL {a b : Bool} (h : (a && b) = true) : a = true := by
  cases a
  · simp at h
  · rfl

theorem andR {a b : Bool} (h : (a && b) = true) : b = true := by
  cases b
  · simp at h
  · rfl

theorem pass2_cons (x : Char) (xs : List Char) :
    ∃ ys, pass2 (x :: xs) = x :: ys := by
  cases xs with
  | nil => exact ⟨[], rfl⟩
  | cons b rest =>
      by_cases h : ((isLow x || isDig x) && isUp b) = true
      · exact ⟨' ' :: b :: pass2 rest, by simp [pass2, h]⟩
      · exact ⟨pass2 (b :: rest), by
          have h' : ((isLow x || isDig x) && isUp b) = false := by simpa using h
          simp [pass2, h']⟩

theorem noUUL_cons3 {a b c : Char} {t : List Char}
    (h1 : (isUp a && isUp b && isLow c) = false)
    (h2 : noUUL (b :: c :: t) = true) : noUUL (a :: b :: c :: t) = true := by
  simp only [noUUL, h1]
  simpa using h2

theorem noUUL_head {a b c : Char} {t : List Char}
    (h : noUUL (a :: b :: c :: t) = true) :
    (isUp a && isUp b && isLow c) = false := by
  cases hX : (isUp a && isUp b && isLow c) with
  | false => rfl
  | true =>
      have h1 := andL
        (show ((!(isUp a && isUp b && isLow c)) && noUUL (b :: c :: t)) = true from h)
      rw [hX] at h1
      simp at h1

theorem noLU_cons2 {a b : Char} {t : List Char}
    (h1 : ((isLow a || isDig a) && isUp b) = false)
    (h2 : noLU (b :: t) = true) : noLU (a :: b :: t) = true := by
  simp only [noLU, h1]
  simpa [noLU] using h2

theorem noLU_cons_up {x : Char} {t : List Char} (hx : isUp x = true)
    (ht : noLU t = true) : noLU (x :: t) = true := by
  match t with
  | [] => rfl
  | y :: t' =>
      refine noLU_cons2 ?_ (by simpa [noLU] using ht)
      simp [isLow_of_up hx, isDig_of_up hx]

theorem pass2_noLU (l : List Char) : noLU (pass2 l) = true := by
  induction l using pass2.induct with
  | case1 => rfl
  | case2 c => rfl
  | case3 a b rest h ih =>
      rw [show pass2 (a :: b :: rest) = a :: ' ' :: b :: pass2 rest by
        simp [pass2, h]]
      refine noLU_cons2 (by simp [isUp]) ?_
      refine noLU_cons2 (by simp [isLow, isDig]) ?_
      exact noLU_cons_up (andR h) ih
  | case4 a b rest h ih =>
      rw [show pass2 (a :: b :: rest) = a :: pass2 (b :: rest) by
        simp [pass2, h]]
      obtain ⟨ys, hys⟩ := pass2_cons b rest
      rw [hys] at ih ⊢
      exact noLU_cons2 (by simpa using h) ih

theorem pass2_noUUL (l : List Char) (h : noUUL l = true) :
    noUUL (pass2 l) = true := by
  induction l using pass2.induct with
  | case1 => rfl
  | case2 c => rfl
  | case3 a b rest hc ih =>
      rw [show pass2 (a :: b :: rest) = a :: ' ' :: b :: pass2 rest by
        simp [pass2, hc]]
      have hm : noUUL (pass2 rest) = true := ih (noUUL_tail (noUUL_tail h))
      have ha : isUp a = false := isUp_of_lowdig (andL hc)
      have hbm : noUUL (b :: pass2 rest) = true := by
        match rest, hm, h with
        | [], _, _ => rfl
        | [r0], _, _ => rfl
        | r0 :: r1 :: rest', hm, h =>
            have h3 : (isUp b && isUp r0 && isLow r1) = false :=
              noUUL_head (noUUL_tail h)
            by_cases hc2 : ((isLow r0 || isDig r0) && isUp r1) = true
            · rw [show pass2 (r0 :: r1 :: rest') = r0 :: ' ' :: r1 :: pass2 rest' by
                simp [pass2, hc2]] at hm ⊢
              have hr0 : isUp r0 = false := isUp_of_lowdig (andL hc2)
              exact noUUL_cons3 (by simp [hr0]) hm
            · have hc2' : ((isLow r0 || isDig r0) && isUp r1) = false := by
                simpa using hc2
              rw [show pass2 (r0 :: r1 :: rest') = r0 :: pass2 (r1 :: rest') by
                simp [pass2, hc2']] at hm ⊢
              obtain ⟨zs, hzs⟩ := pass2_cons r1 rest'
              rw [hzs] at hm ⊢
              exact noUUL_cons3 h3 hm
      exact noUUL_cons_notUp ha (noUUL_cons_notUp (by decide) hbm)
  | case4 a b rest hc ih =>
      rw [show pass2 (a :: b :: rest) = a :: pass2 (b :: rest) by
        simp [pass2, hc]]
      have hm : noUUL (pass2 (b :: rest)) = true := ih (noUUL_tail h)
      match rest, hm, h with
      | [], _, _ => rfl
      | r0 :: rest', hm, h =>
          by_cases hc2 : ((isLow b || isDig b) && isUp r0) = true
          · rw [show pass2 (b :: r0 :: rest') = b :: ' ' :: r0 :: pass2 rest' by
              simp [pass2, hc2]] at hm ⊢
            have hb : isUp b = false := isUp_of_lowdig (andL hc2)
            exact noUUL_cons_midNotUp hb hm
          · have hc2' : ((isLow b || isDig b) && isUp r0) = false := by
              simpa using hc2
            rw [show pass2 (b :: r0 :: rest') = b :: pass2 (r0 :: rest') by
              simp [pass2, hc2']] at hm ⊢
            obtain ⟨zs, hzs⟩ := pass2_cons r0 rest'
            rw [hzs] at hm ⊢
            exact noUUL_cons3 (noUUL_head h) hm

theorem pass2_id (l : List Char) (h : noLU l = true) : pass2 l = l := by
  induction l using pass2.induct with
  | case1 => rfl
  | case2 c => rfl
  | case3 a b rest hc ih =>
      have h1 := andL (show ((!((isLow a || isDig a) && isUp b)) && noLU (b :: rest)) = true from h)
      rw [hc] at h1
      simp at h1
  | case4 a b rest hc ih =>
      have h2 : noLU (b :: rest) = true :=
        andR (show ((!((isLow a || isDig a) && isUp b)) && noLU (b :: rest)) = true from h)
      rw [show pass2 (a :: b :: rest) = a :: pass2 (b :: rest) by
        simp [pass2, hc]]
      rw [ih h2]

/-! ## The humanizer is idempotent -/

theorem split_idem_list (l : List Char) :
    pass2 (pass1 (pass2 (pass1 l))) = pass2 (pass1 l) := by
  have h1 : noUUL (pass1 l) = true := pass1Go_noUUL l [] rfl
  have h2 : noUUL (pass2 (pass1 l)) = true := pass2_noUUL _ h1
  have h3 : noLU (pass2 (pass1 l)) = true := pass2_noLU _
  have h4 : pass1 (pass2 (pass1 l)) = pass2 (pass1 l) := by
    have h5 := pass1Go_id (pass2 (pass1 l)) [] rfl (by simpa using h2)
    simpa using h5
  rw [h4, pass2_id _ h3]

/-! ## Lemmas: rounding -/

theorem roundHalfEven_int (k : ℤ) : roundHalfEven (k : ℚ) = k := by
  unfold roundHalfEven
  rw [ratFloor_eq, Int.floor_intCast, qsub_eq, sub_self, mkQ_eq_div]
  rw [if_pos (by norm_num)]

theorem Val.round2_round2 (v : Val) : v.round2.round2 = v.round2 := by
  cases v with
  | num q =>
      have h : roundHalfEven (qmul (mkQ (roundHalfEven (qmul q 100)) 100) 100) =
          roundHalfEven (qmul q 100) := by
        rw [qmul_eq, mkQ_eq_div, (by norm_num : ((100 : ℕ) : ℚ) = (100 : ℚ)),
          div_mul_cancel₀ _ (by norm_num : (100 : ℚ) ≠ 0), roundHalfEven_int]
      show Val.num (mkQ (roundHalfEven
          (qmul (mkQ (roundHalfEven (qmul q 100)) 100) 100)) 100) =
        Val.num (mkQ (roundHalfEven (qmul q 100)) 100)
      rw [h]
  | na => rfl
  | inf => rfl
  | negInf => rfl
  | str s => rfl

theorem bpsCell_round (a b : Val) : (bpsCell a b).round2 = bpsCell a b :=
  Val.round2_round2 _

theorem pctCell_round (a b : Val) : (pctCell a b).round2 = pctCell a b :=
  Val.round2_round2 _

/-! ## Lemmas: selection and error propagation -/

theorem map_error_iff {f : Table → Table} {x : Except PyError Table} :
    (∃ e, x.map f = .error e) ↔ (∃ e, x = .error e) := by
  cases x <;> simp [Except.map]

theorem map_ok_elim {f : Table → Table} {x : Except PyError Table} {t : Table}
    (h : x.map f = .ok t) : ∃ s, x = .ok s ∧ t = f s := by
  cases x with
  | error e => simp [Except.map] at h
  | ok s => exact ⟨s, rfl, by simpa [Except.map] using h.symm⟩

theorem select_error {t : Table} {keys : List String}
    (h : ∃ k ∈ keys, ¬ k ∈ t.colNames) :
    ∃ k ∈ keys, ¬ k ∈ t.colNames ∧ t.select keys = .error (.missingField k) := by
  obtain ⟨k0, hk0, hk0n⟩ := h
  unfold Table.select
  cases h2 : keys.find? (fun k => !(t.colNames.contains k)) with
  | none =>
      exfalso
      have := List.find?_eq_none.mp h2 k0 hk0
      simp at this
      exact hk0n this
  | some k =>
      refine ⟨k, List.mem_of_find?_eq_some h2, ?_, rfl⟩
      have := List.find?_some h2
      simpa using this

theorem select_ok {t : Table} {keys : List String}
    (h : ∀ k ∈ keys, k ∈ t.colNames) :
    t.select keys = .ok
      { colNames := keys,
        rows := t.rows.map (fun r =>
          (r.1, keys.map (fun k =>
            match t.colNames.indexOf? k with
            | some i => r.2.getD i .na
            | none => .na))) } := by
  unfold Table.select
  cases h2 : keys.find? (fun k => !(t.colNames.contains k)) with
  | none => rfl
  | some k =>
      exfalso
      have hk := List.find?_some h2
      simp at hk
      exact hk (h k (List.mem_of_find?_eq_some h2))

theorem select_ok_elim {t s : Table} {keys : List String}
    (h : t.select keys = .ok s) :
    s.colNames = keys ∧
    s.rows = t.rows.map (fun r =>
      (r.1, keys.map (fun k =>
        match t.colNames.indexOf? k with
        | some i => r.2.getD i .na
        | none => .na))) := by
  unfold Table.select at h
  cases h2 : keys.find? (fun k => !(t.colNames.contains k)) with
  | none =>
      rw [h2] at h
      cases h
      exact ⟨rfl, rfl⟩
  | some k => rw [h2] at h; cases h

/-! ## Lemmas: index labels through the pipeline -/

theorem mem_insertRow (x y : String × List Val) (rs : List (String × List Val)) :
    y ∈ insertRow x rs ↔ y = x ∨ y ∈ rs := by
  induction rs with
  | nil => simp [insertRow]
  | cons r rs' ih =>
      unfold insertRow
      by_cases h : strLt x.1 r.1 = true
      · simp only [if_pos h, List.mem_cons]
      · simp only [if_neg h, List.mem_cons, ih]
        tauto

theorem mem_sortRows (y : String × List Val) (rs : List (String × List Val)) :
    y ∈ sortRows rs ↔ y ∈ rs := by
  induction rs with
  | nil => simp [sortRows]
  | cons r rs' ih =>
      simp only [sortRows, mem_insertRow, ih, List.mem_cons]

theorem mem_labels_sortIndex (t : Table) (l : String) :
    l ∈ t.sortIndex.labels ↔ l ∈ t.labels := by
  simp only [Table.labels, Table.sortIndex, List.mem_map]
  exact exists_congr fun r => and_congr_left fun _ => mem_sortRows r t.rows

theorem labels_rename (t : Table) (f : String → String) :
    (t.rename f).labels = t.labels := rfl

theorem labels_setCol (t : Table) (c : String) (f : List Val → Val) :
    (t.setCol c f).labels = t.labels := by
  unfold Table.setCol Table.labels
  cases t.colNames.indexOf? c <;> simp

theorem mem_dedupAux (x : String) :
    ∀ (l seen : List String),
      x ∈ dedupAux seen l ↔ (x ∈ l ∧ seen.contains x = false) := by
  intro l
  induction l with
  | nil => intro seen; simp [dedupAux]
  | cons y ys ih =>
      intro seen
      unfold dedupAux
      by_cases h : seen.contains y = true
      · rw [if_pos h, ih]
        constructor
        · rintro ⟨h1, h2⟩
          exact ⟨List.mem_cons_of_mem _ h1, h2⟩
        · rintro ⟨h1, h2⟩
          rcases List.mem_cons.mp h1 with rfl | h1
          · rw [h] at h2; cases h2
          · exact ⟨h1, h2⟩
      · have h' : seen.contains y = false := by simpa using h
        rw [if_neg h]
        by_cases hxy : x = y
        · subst hxy
          have hns : x ∉ seen := by simpa using h
          simp [h', hns]
        · simp only [List.mem_cons, ih, List.contains_cons]
          have hbeq : (x == y) = false := by simpa using hxy
          simp [hxy, hbeq]

theorem labels_concatOuter (ts : List Table) :
    (concatOuter ts).labels = dedupAux [] (ts.flatMap Table.labels) := by
  simp [concatOuter, Table.labels, List.map_map, Function.comp_def]

theorem mem_labels_assembleFundamentals (i c b : Table) (l : String) :
    l ∈ (assembleFundamentals i c b).labels ↔
      l ∈ i.labels ∨ l ∈ c.labels ∨ l ∈ b.labels := by
  unfold assembleFundamentals
  rw [mem_labels_sortIndex, labels_rename, labels_setCol, labels_setCol,
    labels_setCol, labels_setCol, labels_concatOuter, mem_dedupAux]
  simp

/-! ## Lemmas: growth engine -/

theorem mem_zipWith {α β γ : Type} {f : α → β → γ} {x : γ} :
    ∀ {l₁ : List α} {l₂ : List β}, x ∈ List.zipWith f l₁ l₂ → ∃ a b, x = f a b := by
  intro l₁
  induction l₁ with
  | nil => intro l₂ h; simp at h
  | cons a l₁' ih =>
      intro l₂ h
      cases l₂ with
      | nil => simp at h
      | cons b l₂' =>
          rcases List.mem_cons.mp (by simpa [List.zipWith] using h) with h1 | h1
          · exact ⟨a, b, h1⟩
          · exact ih h1

theorem getD_na_mem (l : List Val) (j : Nat) :
    l.getD j .na = .na ∨ l.getD j .na ∈ l := by
  induction l generalizing j with
  | nil => left; simp
  | cons x xs ih =>
      cases j with
      | zero => right; simp
      | succ j' =>
          rw [List.getD_cons_succ]
          rcases ih j' with h | h
          · left; exact h
          · right; exact List.mem_cons_of_mem _ h

theorem mem_growthColVals_round {x : Val} {p : Nat} {c : String} {v : List Val}
    (h : x ∈ growthColVals p c v) : x.round2 = x := by
  unfold growthColVals at h
  by_cases hc : strEndsWith c "Margin" = true
  · rw [if_pos hc] at h
    obtain ⟨a, b, rfl⟩ := mem_zipWith h
    exact bpsCell_round a b
  · rw [if_neg hc] at h
    obtain ⟨a, b, rfl⟩ := mem_zipWith h
    exact pctCell_round a b

theorem compute_growth_colNames (df : Table) (p : Nat) :
    (compute_growth df p).colNames = df.colNames.map growthName := rfl

theorem compute_growth_cells_round (df : Table) (p : Nat) :
    (compute_growth df p).rows.map (fun r => r.2.map Val.round2) =
      (compute_growth df p).rows.map Prod.snd := by
  apply List.map_congr_left
  intro r hr
  have hr2 : r ∈ (growthRaw df p).rows := (List.mem_filter.mp hr).1
  have hcells : ∀ x ∈ r.2, Val.round2 x = id x := by
    intro x hx
    simp only [growthRaw, List.mem_map] at hr2
    obtain ⟨j, _, hj⟩ := hr2
    rw [← hj] at hx
    simp only [List.mem_map] at hx
    obtain ⟨cv, hcv, hx2⟩ := hx
    rcases getD_na_mem cv j with h0 | h0
    · rw [← hx2, h0]; rfl
    · simp only [growthCols, List.mem_map] at hcv
      obtain ⟨idx, _, hidx⟩ := hcv
      rw [← hx2]
      apply mem_growthColVals_round
      rw [hidx]
      exact h0
  calc r.2.map Val.round2 = r.2.map id := List.map_congr_left hcells
    _ = r.2 := List.map_id _

/-! ## Lemmas: column names through the fundamentals pipeline -/

theorem dropna_colNames (t : Table) : t.dropna.colNames = t.colNames := rfl

theorem dropnaAll_colNames (t : Table) : t.dropnaAll.colNames = t.colNames := rfl

theorem mapVals_colNames (t : Table) (f : Val → Val) :
    (t.mapVals f).colNames = t.colNames := rfl

theorem rename_colNames (t : Table) (f : String → String) :
    (t.rename f).colNames = t.colNames.map f := rfl

theorem sortIndex_colNames (t : Table) : t.sortIndex.colNames = t.colNames := rfl

theorem setCol_colNames (t : Table) (c : String) (f : List Val → Val) :
    (t.setCol c f).colNames =
      if (t.colNames.indexOf? c).isSome then t.colNames
      else t.colNames ++ [c] := by
  unfold Table.setCol
  cases h : t.colNames.indexOf? c <;> simp [h]

theorem extract_income_colNames {df t : Table}
    (h : extract_income_stmt_metrics df = .ok t) : t.colNames = incomeKeys := by
  obtain ⟨s, hs, rfl⟩ := map_ok_elim h
  exact (select_ok_elim hs).1

theorem extract_cashflow_colNames {df t : Table}
    (h : extract_cashflow_stmt_metrics df = .ok t) : t.colNames = cashflowKeys := by
  obtain ⟨s, hs, rfl⟩ := map_ok_elim h
  have h1 : s.colNames = cashflowKeys := (select_ok_elim hs).1
  simp only [dropna_colNames, setCol_colNames, h1]
  rfl

theorem extract_balance_colNames {df t : Table}
    (h : extract_balance_sheet_metrics df = .ok t) :
    t.colNames = ["Cash", "TotalDebt", "DebtToCash"] := by
  obtain ⟨s, hs, rfl⟩ := map_ok_elim h
  have h1 : s.colNames = balanceKeys := (select_ok_elim hs).1
  simp only [dropna_colNames, setCol_colNames, rename_colNames, h1]
  rfl

theorem build_fundamentals_elim {it ct bt out : Table}
    (h : build_fundamentals it ct bt = .ok out) :
    ∃ i c b, extract_income_stmt_metrics it = .ok i ∧
      extract_cashflow_stmt_metrics ct = .ok c ∧
      extract_balance_sheet_metrics bt = .ok b ∧
      out = assembleFundamentals i c b := by
  unfold build_fundamentals at h
  cases h1 : extract_income_stmt_metrics it with
  | error e => rw [h1] at h; simp [Bind.bind, Except.bind] at h
  | ok i =>
      rw [h1] at h
      simp only [Bind.bind, Except.bind] at h
      cases h2 : extract_cashflow_stmt_metrics ct with
      | error e => rw [h2] at h; simp [Except.bind] at h
      | ok c =>
          rw [h2] at h
          cases h3 : extract_balance_sheet_metrics bt with
          | error e => rw [h3] at h; simp [Except.bind] at h
          | ok b =>
              rw [h3] at h
              simp only [Except.bind, pure, Except.pure] at h
              cases h
              exact ⟨i, c, b, rfl, rfl, rfl, rfl⟩

/-- The fixed humanized column list of the fundamentals table. -/
def fundamentalsCols : List String :=
  ["Total Revenue", "Gross Profit", "Operating Income", "Net Income",
   "Free Cash Flow", "Capital Expenditure", "Stock Based Compensation",
   "Cash", "Total Debt", "Debt To Cash",
   "Gross Margin", "Operating Margin", "Net Margin", "Free Cash Flow Margin"]

theorem assembleFundamentals_colNames {i c b : Table}
    (hi : i.colNames = incomeKeys) (hc : c.colNames = cashflowKeys)
    (hb : b.colNames = ["Cash", "TotalDebt", "DebtToCash"]) :
    (assembleFundamentals i c b).colNames = fundamentalsCols := by
  unfold assembleFundamentals
  have hdf : (concatOuter [i, c, b]).colNames =
      incomeKeys ++ cashflowKeys ++ ["Cash", "TotalDebt", "DebtToCash"] := by
    simp [concatOuter, hi, hc, hb]
  simp only [sortIndex_colNames, rename_colNames, setCol_colNames, hdf]
  rfl

/-! ## Lemmas: the valuation builder -/

def vendorValuationKeys : List String :=
  ["PeRatio", "ForwardPeRatio", "PsRatio", "PbRatio",
   "EnterprisesValueEBITDARatio", "EnterprisesValueRevenueRatio"]

theorem valuationRename_eq {c dk : String} (h : valuationRename c = dk) :
    c = dk ∨ (c = "PeRatio" ∧ dk = "P/E") ∨
    (c = "ForwardPeRatio" ∧ dk = "Forward P/E") ∨
    (c = "PsRatio" ∧ dk = "P/S") ∨ (c = "PbRatio" ∧ dk = "P/B") ∨
    (c = "EnterprisesValueEBITDARatio" ∧ dk = "EV/EBITDA") ∨
    (c = "EnterprisesValueRevenueRatio" ∧ dk = "EV/Revenue") := by
  unfold valuationRename at h
  split_ifs at h with h1 h2 h3 h4 h5 h6
  · exact Or.inr (Or.inl ⟨h1, h.symm⟩)
  · exact Or.inr (Or.inr (Or.inl ⟨h2, h.symm⟩))
  · exact Or.inr (Or.inr (Or.inr (Or.inl ⟨h3, h.symm⟩)))
  · exact Or.inr (Or.inr (Or.inr (Or.inr (Or.inl ⟨h4, h.symm⟩))))
  · exact Or.inr (Or.inr (Or.inr (Or.inr (Or.inr (Or.inl ⟨h5, h.symm⟩)))))
  · exact Or.inr (Or.inr (Or.inr (Or.inr (Or.inr (Or.inr ⟨h6, h.symm⟩)))))
  · exact Or.inl h

theorem labels_dropCols (t : Table) (cs : List String) :
    (t.dropCols cs).labels = t.labels := by
  simp [Table.dropCols, Table.labels, List.map_map, Function.comp_def]

theorem labels_mapVals (t : Table) (f : Val → Val) :
    (t.mapVals f).labels = t.labels := by
  simp [Table.mapVals, Table.labels, List.map_map, Function.comp_def]

theorem dropCols_colNames (t : Table) (cs : List String) :
    (t.dropCols cs).colNames = t.colNames.filter (fun c => !(cs.contains c)) := rfl

theorem build_valuation_ok_elim {df out : Table}
    (h : build_valuation df = .ok out) :
    out.colNames = valuationKeys ∧
    out.rows.map (fun r => r.2.map Val.round2) = out.rows.map Prod.snd ∧
    (out.rows.all (fun r => !(r.2.any Val.isNA))) = true ∧
    List.Sublist out.labels (reindexByDate df).labels := by
  unfold build_valuation at h
  by_cases hc : df.colNames.contains "asOfDate" = true
  · rw [if_pos hc] at h
    obtain ⟨s, hs, rfl⟩ := map_ok_elim h
    obtain ⟨hcol, hrows⟩ := select_ok_elim hs
    refine ⟨hcol, ?_, ?_, ?_⟩
    · apply List.map_congr_left
      intro r hr
      have hr2 : r ∈ (s.mapVals Val.round2).rows := (List.mem_filter.mp hr).1
      simp only [Table.mapVals, List.mem_map] at hr2
      obtain ⟨r0, _, hr0⟩ := hr2
      have : r.2 = r0.2.map Val.round2 := by rw [← hr0]
      rw [this, List.map_map]
      apply List.map_congr_left
      intro x _
      exact Val.round2_round2 x
    · rw [List.all_eq_true]
      intro r hr
      have hr' : r ∈ (s.mapVals Val.round2).rows.filter
          (fun q => !(q.2.any Val.isNA)) := hr
      have h3 := List.of_mem_filter hr'
      simpa using h3
    · have hsub : List.Sublist ((s.mapVals Val.round2).dropna).labels
          ((s.mapVals Val.round2).labels) := by
        unfold Table.dropna Table.labels
        exact (List.filter_sublist _).map Prod.fst
      rw [labels_mapVals] at hsub
      have hlab : s.labels = (reindexByDate df).labels := by
        unfold Table.labels
        rw [hrows]
        simp [List.map_map, Function.comp_def, Table.rename, Table.dropCols,
          reindexByDate]
      rw [hlab] at hsub
      exact hsub
  · rw [if_neg hc] at h
    cases h

theorem not_mem_t3 {df : Table} {dk : String}
    (h : ∀ c, valuationRename c = dk → ¬ c ∈ df.colNames) :
    ¬ dk ∈ (((reindexByDate df).dropCols
      ["asOfDate", "periodType", "marketCap", "enterpriseValue"]).rename
        valuationRename).colNames := by
  intro hmem
  rw [rename_colNames, dropCols_colNames] at hmem
  obtain ⟨c, hcfil, hcrn⟩ := List.mem_map.mp hmem
  exact h c hcrn (List.mem_filter.mp hcfil).1

/-! ## Lemmas: the `cagr` helper -/

theorem cagr_pos {s e : ℝ} {p : ℤ} (hs : 0 < s) (he : 0 ≤ e) (hp : 0 < p) :
    cagr s e p = .val (Real.rpow (e / s) (1 / (p : ℝ)) - 1) := by
  unfold cagr
  rw [if_neg (by push_neg; exact ⟨ne_of_gt hs, by omega⟩)]
  unfold pyPow
  have hx : 0 ≤ e / s := div_nonneg he (le_of_lt hs)
  have hy : 0 < 1 / (p : ℝ) := by
    apply div_pos one_pos
    exact_mod_cast hp
  have h1 : ¬ (e / s = 0 ∧ 1 / (p : ℝ) < 0) := fun hh =>
    absurd hh.2 (not_lt.mpr (le_of_lt hy))
  have h2 : ¬ (e / s < 0 ∧ ¬ ∃ n : ℤ, 1 / (p : ℝ) = (n : ℝ)) := fun hh =>
    absurd hh.1 (not_lt.mpr hx)
  rw [if_neg h1, if_neg h2]

theorem cagr_zero_start (e : ℝ) (p : ℤ) : cagr 0 e p = .zeroDivisionError := by
  unfold cagr
  rw [if_pos (Or.inl rfl)]

theorem cagr_zero_periods (s e : ℝ) : cagr s e 0 = .zeroDivisionError := by
  unfold cagr
  rw [if_pos (Or.inr rfl)]

theorem cagr_neg_complex : cagr (-100) 200 2 = .complexResult := by
  unfold cagr
  rw [if_neg (by norm_num)]
  unfold pyPow
  have hx : (200 : ℝ) / (-100) = -2 := by norm_num
  rw [hx]
  rw [if_neg (by norm_num)]
  rw [if_pos ?_]
  · constructor
    · norm_num
    · rintro ⟨n, hn⟩
      have h2 : (1 : ℝ) / 2 = (n : ℝ) := by
        have hc : ((2 : ℤ) : ℝ) = (2 : ℝ) := by norm_num
        rw [hc] at hn
        exact hn
      have h3 : (2 : ℝ) * (n : ℝ) = 1 := by
        field_simp at h2
        linarith
      have h4 : (2 : ℤ) * n = 1 := by exact_mod_cast h3
      omega

/-! ## Supporting value-level lemmas for division semantics -/

theorem div_na_right (v : Val) : v.div .na = .na := by cases v <;> rfl

theorem div_na_left (v : Val) : Val.na.div v = .na := by cases v <;> rfl

theorem isNA_iff (v : Val) : v.isNA = true ↔ v = .na := by
  cases v <;> simp [Val.isNA]

theorem div_num_zero_pos {x : ℚ} (hx : 0 < x) :
    (Val.num x).div (.num 0) = .inf := by
  show (if (0 : ℚ) = 0 then
      (if 0 < x then Val.inf else if x < 0 then Val.negInf else Val.na)
    else Val.num (qdiv x 0)) = Val.inf
  rw [if_pos rfl, if_pos hx]

theorem div_num_zero_neg {x : ℚ} (hx : x < 0) :
    (Val.num x).div (.num 0) = .negInf := by
  show (if (0 : ℚ) = 0 then
      (if 0 < x then Val.inf else if x < 0 then Val.negInf else Val.na)
    else Val.num (qdiv x 0)) = Val.negInf
  rw [if_pos rfl, if_neg (by linarith), if_pos hx]

/-! ## Concrete example tables -/

def exIncome : Table :=
  ⟨incomeKeys,
   [("2021", [.num 1000, .num 400, .num 300, .num 200]),
    ("2022", [.num 1100, .num 440, .num 330, .num 220]),
    ("2023", [.num 1210, .num 484, .num 363, .num 242])]⟩

def exCashflow : Table :=
  ⟨cashflowKeys,
   [("2022", [.num 100, .num (-50), .num 10]),
    ("2023", [.num 120, .num (-60), .num 12])]⟩

def exBalance : Table :=
  ⟨balanceKeys,
   [("2022", [.num 200, .num 400]),
    ("2023", [.num 220, .num 440])]⟩

def exIncomeExtract : Table :=
  match extract_income_stmt_metrics exIncome with
  | .ok t => t
  | .error _ => ⟨[], []⟩

def exCashflowExtract : Table :=
  match extract_cashflow_stmt_metrics exCashflow with
  | .ok t => t
  | .error _ => ⟨[], []⟩

def exBalanceExtract : Table :=
  match extract_balance_sheet_metrics exBalance with
  | .ok t => t
  | .error _ => ⟨[], []⟩

def exFund : Table :=
  match build_fundamentals exIncome exCashflow exBalance with
  | .ok t => t
  | .error _ => ⟨[], []⟩

def exBalanceZeroCash : Table := ⟨balanceKeys, [("2022", [.num 0, .num 500])]⟩

def exGrowthZeroDen : Table := ⟨["A"], [("d1", [.num 0]), ("d2", [.num 10])]⟩

def exMargin : Table :=
  ⟨["NetMargin"], [("d1", [.num (mkQ 3 10)]), ("d2", [.num (mkQ 33 100)])]⟩

def exRevenue : Table :=
  ⟨["TotalRevenue"], [("d1", [.num 100]), ("d2", [.num 110])]⟩

def exMixed : Table :=
  ⟨["NetMargin", "TotalRevenue"],
   [("d1", [.num (mkQ 3 10), .num 100]),
    ("d2", [.num (mkQ 33 100), .num 110]),
    ("d3", [.num (mkQ 9 25), .na])]⟩

def exValuation : Table :=
  ⟨["asOfDate", "periodType", "PeRatio", "ForwardPeRatio", "PsRatio",
    "PbRatio", "EnterprisesValueEBITDARatio", "EnterprisesValueRevenueRatio"],
   [("0", [.str "2023-06-30 00:00:00", .str "3M", .num 10, .num (mkQ 117 10),
           .num 2, .num 3, .num 8, .num 4]),
    ("1", [.str "2022-06-30 00:00:00", .str "3M", .num 9, .num 10, .num 1,
           .num 2, .num 7, .num 3])]⟩

/-! ## Claims -/

/-- C3, counterexample to the claim as stated: on a balance sheet with
Cash = 0 and TotalDebt = 500, DebtToCash is computed as +infinity — a
non-null value — and the row is retained, where the claim says the
division yields null and the row is dropped. -/
theorem C3_counterexample :
    extract_balance_sheet_metrics exBalanceZeroCash =
      .ok ⟨["Cash", "TotalDebt", "DebtToCash"],
           [("2022", [.num 0, .num 500, .inf])]⟩ ∧
    Val.inf.isNA = false :=
  ⟨rfl, rfl⟩

/-- C3, amended: a division with a null operand yields null and never
raises; a zero denominator yields null only when the numerator is also
zero (or null) — a positive numerator over zero gives +infinity and a
negative numerator gives −infinity, both non-null, so such rows are
retained rather than dropped. Concretely: Cash = 0 with TotalDebt = −300
keeps the row with DebtToCash = −infinity; a null Cash drops the row
before the ratio; Cash = TotalDebt = 0 yields a null ratio and the row is
dropped. -/
theorem C3_division_semantics :
    (∀ v : Val, v.div .na = .na ∧ Val.na.div v = .na) ∧
    (∀ x : ℚ, 0 < x → (Val.num x).div (.num 0) = .inf) ∧
    (∀ x : ℚ, x < 0 → (Val.num x).div (.num 0) = .negInf) ∧
    (Val.num 0).div (.num 0) = .na ∧
    extract_balance_sheet_metrics ⟨balanceKeys, [("2022", [.num 0, .num (-300)])]⟩ =
      .ok ⟨["Cash", "TotalDebt", "DebtToCash"],
           [("2022", [.num 0, .num (-300), .negInf])]⟩ ∧
    extract_balance_sheet_metrics ⟨balanceKeys, [("2022", [.na, .num 500])]⟩ =
      .ok ⟨["Cash", "TotalDebt", "DebtToCash"], []⟩ ∧
    extract_balance_sheet_metrics ⟨balanceKeys, [("2022", [.num 0, .num 0])]⟩ =
      .ok ⟨["Cash", "TotalDebt", "DebtToCash"], []⟩ :=
  ⟨fun v => ⟨div_na_right v, div_na_left v⟩,
   fun _ hx => div_num_zero_pos hx,
   fun _ hx => div_num_zero_neg hx,
   rfl, rfl, rfl, rfl⟩

/-- C3, witness for the amended theorem at concrete inputs. -/
theorem C3_witness :
    (Val.num 5).div .na = .na ∧
    (Val.num 5).div (.num 0) = .inf ∧
    (Val.num (-5)).div (.num 0) = .negInf :=
  ⟨(C3_division_semantics.1 (Val.num 5)).1,
   C3_division_semantics.2.1 5 (by norm_num),
   C3_division_semantics.2.2.1 (-5) (by norm_num)⟩

/-- C4, counterexample to the claim as stated: a column with values 0 then
10 and lag 1 has a zero lagged denominator at the second row, yet the
growth output there is +infinity — a non-null value — where the claim says
it must be null. -/
theorem C4_counterexample :
    compute_growth exGrowthZeroDen 1 = ⟨["A Growth (%)"], [("d2", [.inf])]⟩ ∧
    Val.inf.isNA = false :=
  ⟨rfl, rfl⟩

/-- C4, amended: a percent-change cell with a null operand is null and no
cell ever raises; a zero lagged denominator yields null only when the
current value is also zero — a positive current value over a zero
denominator yields +infinity and a negative one −infinity, both
non-null. -/
theorem C4_pct_change_semantics :
    (∀ a b : Val, a.isNA = true ∨ b.isNA = true → pctCell a b = .na) ∧
    (∀ x : ℚ, 0 < x → pctCell (.num x) (.num 0) = .inf) ∧
    (∀ x : ℚ, x < 0 → pctCell (.num x) (.num 0) = .negInf) ∧
    pctCell (.num 0) (.num 0) = .na := by
  refine ⟨?_, ?_, ?_, rfl⟩
  · intro a b h
    rcases h with h | h
    · rw [(isNA_iff a).mp h]
      simp [pctCell, div_na_left, Val.sub, Val.mul, Val.round2]
    · rw [(isNA_iff b).mp h]
      simp [pctCell, div_na_right, Val.sub, Val.mul, Val.round2]
  · intro x hx
    simp only [pctCell, div_num_zero_pos hx]
    norm_num [Val.sub, Val.mul, Val.round2]
  · intro x hx
    simp only [pctCell, div_num_zero_neg hx]
    norm_num [Val.sub, Val.mul, Val.round2]

/-- C4, witness for the amended theorem at concrete inputs. -/
theorem C4_witness :
    pctCell .na (.num 5) = .na ∧
    pctCell (.num 10) (.num 0) = .inf ∧
    pctCell (.num (-10)) (.num 0) = .negInf :=
  ⟨C4_pct_change_semantics.1 .na (.num 5) (Or.inl rfl),
   C4_pct_change_semantics.2.1 10 (by norm_num),
   C4_pct_change_semantics.2.2.1 (-10) (by norm_num)⟩

/-- C5, counterexample to the claim as stated: `cagr(0, 100, 5)` and
`cagr(100, 200, 0)` raise `ZeroDivisionError` rather than producing a
NaN-equivalent result. -/
theorem C5_counterexample :
    cagr 0 100 5 = .zeroDivisionError ∧ cagr 100 200 0 = .zeroDivisionError :=
  ⟨cagr_zero_start 100 5, cagr_zero_periods 100 200⟩

/-- C5, amended: for start > 0, end ≥ 0 and periods > 0, `cagr` returns
the real number (end/start)^(1/periods) − 1, so cagr(100,200,1) = 1 and
cagr(100,100,5) = 0; but a zero start or zero periods raises
`ZeroDivisionError`, and a negative start with |periods| ≥ 2 returns a
complex number, never a NaN-equivalent. -/
theorem C5_cagr_semantics :
    (∀ s e : ℝ, ∀ p : ℤ, 0 < s → 0 ≤ e → 0 < p →
        cagr s e p = .val (Real.rpow (e / s) (1 / (p : ℝ)) - 1)) ∧
    cagr 100 200 1 = .val 1 ∧
    cagr 100 100 5 = .val 0 ∧
    (∀ e : ℝ, ∀ p : ℤ, cagr 0 e p = .zeroDivisionError) ∧
    (∀ s e : ℝ, cagr s e 0 = .zeroDivisionError) ∧
    cagr (-100) 200 2 = .complexResult := by
  refine ⟨fun s e p hs he hp => cagr_pos hs he hp, ?_, ?_,
    cagr_zero_start, cagr_zero_periods, cagr_neg_complex⟩
  · rw [cagr_pos (by norm_num) (by norm_num) (by norm_num)]
    norm_num [Real.rpow_one]
  · rw [cagr_pos (by norm_num) (by norm_num) (by norm_num)]
    norm_num [Real.one_rpow]

/-- C5, witness for the amended theorem at a concrete input. -/
theorem C5_witness :
    cagr 100 200 1 = .val (Real.rpow ((200 : ℝ) / 100) (1 / ((1 : ℤ) : ℝ)) - 1) :=
  C5_cagr_semantics.1 100 200 1 (by norm_num) (by norm_num) (by norm_num)

/-- C7: the growth engine emits one output column per input column in
original order — margin-suffixed columns become "<name> Change (bps)" and
all others "<name> Growth (%)" — every output cell is a fixed point of
2-decimal rounding, and on the spec's examples 0.30 → 0.33 yields 3.0 bps
and 100 → 110 yields 10.0 percent. -/
theorem C7_growth_columns :
    (∀ df : Table, ∀ p : Nat, (compute_growth df p).colNames =
        df.colNames.map (fun c =>
          if strEndsWith c "Margin" then c ++ " Change (bps)"
          else c ++ " Growth (%)")) ∧
    (∀ df : Table, ∀ p : Nat,
        (compute_growth df p).rows.map (fun r => r.2.map Val.round2) =
          (compute_growth df p).rows.map Prod.snd) ∧
    compute_growth exMargin 1 =
      ⟨["NetMargin Change (bps)"], [("d2", [.num 3])]⟩ ∧
    compute_growth exRevenue 1 =
      ⟨["TotalRevenue Growth (%)"], [("d2", [.num 10])]⟩ :=
  ⟨fun df p => compute_growth_colNames df p,
   fun df p => compute_growth_cells_round df p, rfl, rfl⟩

/-- C8: a growth row is dropped exactly when every output cell on it is
null; a row mixing null and non-null outputs is retained with the nulls in
place (concretely: with lag 1, the mixed table keeps row d3 as
(3.0, null) and drops the all-null leading row d1). -/
theorem C8_all_null_row_drop :
    (∀ df : Table, ∀ p : Nat, ∀ r : String × List Val,
        r ∈ (compute_growth df p).rows ↔
          (r ∈ (growthRaw df p).rows ∧ (r.2.all Val.isNA) = false)) ∧
    compute_growth exMixed 1 =
      ⟨["NetMargin Change (bps)", "TotalRevenue Growth (%)"],
       [("d2", [.num 3, .num 10]), ("d3", [.num 3, .na])]⟩ := by
  refine ⟨?_, rfl⟩
  intro df p r
  have hmem : r ∈ (compute_growth df p).rows ↔
      r ∈ (growthRaw df p).rows.filter (fun q => !(q.2.all Val.isNA)) :=
    Iff.rfl
  rw [hmem, List.mem_filter]
  constructor
  · rintro ⟨h1, h2⟩
    exact ⟨h1, by simpa using h2⟩
  · rintro ⟨h1, h2⟩
    exact ⟨h1, by simpa using h2⟩

/-- C9: the humanizer is idempotent on every string; in particular
"EBITDA Ratio" is unchanged and a bare acronym "EBITDA" is left
unsplit. -/
theorem C9_humanizer_idempotent :
    (∀ s : String, split_camel_case (split_camel_case s) = split_camel_case s) ∧
    split_camel_case "EBITDA Ratio" = "EBITDA Ratio" ∧
    split_camel_case "EBITDA" = "EBITDA" := by
  refine ⟨?_, rfl, rfl⟩
  intro s
  exact congrArg String.mk (split_idem_list s.data)

/-! ## Remaining claims -/

deriving instance DecidableEq for Except

def exValuationOut : Table :=
  match build_valuation exValuation with
  | .ok t => t
  | .error _ => ⟨[], []⟩

def exIncomeMissing : Table :=
  ⟨["TotalRevenue", "GrossProfit", "OperatingIncome"], []⟩

def exIncomeNullRow : Table :=
  ⟨incomeKeys, [("2022", [.num 1000, .na, .num 300, .num 200])]⟩

/-- C1, counterexample to the claim as stated: with income dates
{2021, 2022, 2023} and cash-flow and balance-sheet dates {2022, 2023}
only, `build_fundamentals` keeps 2021 in its output index — `pd.concat`
joins with outer, not inner, semantics. -/
theorem C1_counterexample :
    (build_fundamentals exIncome exCashflow exBalance).map Table.labels =
      .ok ["2021", "2022", "2023"] := by decide

/-- C1, amended: the fundamentals builder aligns the three extracts with
an outer join — a date appears in its output exactly when it appears in at
least one extract, with nulls padding the tables that lack it. The
inner-join behaviour the claim describes arises only in the caller
`Stock.fundamentals`, whose trailing `.dropna()` removes every row with
any null; on the example it yields exactly {2022, 2023}. -/
theorem C1_fundamentals_join :
    (∀ it ct bt i c b out : Table,
        extract_income_stmt_metrics it = .ok i →
        extract_cashflow_stmt_metrics ct = .ok c →
        extract_balance_sheet_metrics bt = .ok b →
        build_fundamentals it ct bt = .ok out →
        ∀ l, l ∈ out.labels ↔ (l ∈ i.labels ∨ l ∈ c.labels ∨ l ∈ b.labels)) ∧
    (stock_fundamentals exIncome exCashflow exBalance).map Table.labels =
      .ok ["2022", "2023"] := by
  refine ⟨?_, by decide⟩
  intro it ct bt i c b out h1 h2 h3 h4 l
  obtain ⟨i', c', b', hi', hc', hb', rfl⟩ := build_fundamentals_elim h4
  rw [h1] at hi'
  rw [h2] at hc'
  rw [h3] at hb'
  cases hi'
  cases hc'
  cases hb'
  exact mem_labels_assembleFundamentals i c b l

/-- C1, witness for the amended theorem at the example tables. -/
theorem C1_witness :
    "2021" ∈ exFund.labels ↔
      ("2021" ∈ exIncomeExtract.labels ∨ "2021" ∈ exCashflowExtract.labels ∨
       "2021" ∈ exBalanceExtract.labels) :=
  C1_fundamentals_join.1 exIncome exCashflow exBalance
    exIncomeExtract exCashflowExtract exBalanceExtract exFund
    rfl rfl rfl rfl "2021"

theorem select_map_error {df : Table} {keys : List String} {F : Table → Table}
    (h : ∃ k ∈ keys, ¬ k ∈ df.colNames) :
    ∃ k, (df.select keys).map F = .error (.missingField k) := by
  obtain ⟨k, hk, hn, hsel⟩ := select_error h
  exact ⟨k, by rw [hsel]; rfl⟩

theorem select_map_ok {df : Table} {keys : List String} {F : Table → Table}
    (h : ∀ k ∈ keys, k ∈ df.colNames) :
    ∃ t, (df.select keys).map F = .ok t := by
  rw [select_ok h]
  exact ⟨_, rfl⟩

theorem not_mem_t3_of {df : Table} (vk dk : String)
    (helim : ∀ c, valuationRename c = dk → c = dk ∨ c = vk)
    (hdknot : ¬ dk ∈ df.colNames) (hvknot : ¬ vk ∈ df.colNames) :
    ¬ dk ∈ (((reindexByDate df).dropCols
      ["asOfDate", "periodType", "marketCap", "enterpriseValue"]).rename
        valuationRename).colNames := by
  apply not_mem_t3
  intro c hc
  rcases helim c hc with rfl | rfl
  · exact hdknot
  · exact hvknot

/-- C2: a required column absent from the input table makes each
extractor, and the valuation builder, fail with the fatal missing-field
error (pandas `KeyError`, the spec's `MissingFieldError`), while inputs
with all required columns present — even with null values in them —
succeed: "column absent" is distinguished from "column present but value
null", and an absent column is never filled with nulls. -/
theorem C2_missing_field :
    (∀ df : Table, (∃ k ∈ incomeKeys, ¬ k ∈ df.colNames) →
        ∃ k, extract_income_stmt_metrics df = .error (.missingField k)) ∧
    (∀ df : Table, (∀ k ∈ incomeKeys, k ∈ df.colNames) →
        ∃ t, extract_income_stmt_metrics df = .ok t) ∧
    (∀ df : Table, (∃ k ∈ cashflowKeys, ¬ k ∈ df.colNames) →
        ∃ k, extract_cashflow_stmt_metrics df = .error (.missingField k)) ∧
    (∀ df : Table, (∀ k ∈ cashflowKeys, k ∈ df.colNames) →
        ∃ t, extract_cashflow_stmt_metrics df = .ok t) ∧
    (∀ df : Table, (∃ k ∈ balanceKeys, ¬ k ∈ df.colNames) →
        ∃ k, extract_balance_sheet_metrics df = .error (.missingField k)) ∧
    (∀ df : Table, (∀ k ∈ balanceKeys, k ∈ df.colNames) →
        ∃ t, extract_balance_sheet_metrics df = .ok t) ∧
    (∀ df : Table, "asOfDate" ∈ df.colNames →
        (∀ dk ∈ valuationKeys, ¬ dk ∈ df.colNames) →
        (∃ vk ∈ vendorValuationKeys, ¬ vk ∈ df.colNames) →
        ∃ k, build_valuation df = .error (.missingField k)) ∧
    (∀ df : Table, "asOfDate" ∈ df.colNames →
        (∀ vk ∈ vendorValuationKeys, vk ∈ df.colNames) →
        ∃ t, build_valuation df = .ok t) := by
  refine ⟨fun df h => select_map_error h, fun df h => select_map_ok h,
    fun df h => select_map_error h, fun df h => select_map_ok h,
    fun df h => select_map_error h, fun df h => select_map_ok h, ?_, ?_⟩
  · rintro df hAs hdisp ⟨vk, hvkmem, hvknot⟩
    have hcont : df.colNames.contains "asOfDate" = true := by simpa using hAs
    unfold build_valuation
    rw [if_pos hcont]
    apply select_map_error
    simp only [vendorValuationKeys, List.mem_cons, List.not_mem_nil,
      or_false] at hvkmem
    rcases hvkmem with rfl | rfl | rfl | rfl | rfl | rfl
    · exact ⟨"P/E", by simp [valuationKeys],
        not_mem_t3_of _ "P/E" (fun c hc => by
          rcases valuationRename_eq hc with h | h | h | h | h | h | h <;> simp_all)
          (hdisp _ (by simp [valuationKeys])) hvknot⟩
    · exact ⟨"Forward P/E", by simp [valuationKeys],
        not_mem_t3_of _ "Forward P/E" (fun c hc => by
          rcases valuationRename_eq hc with h | h | h | h | h | h | h <;> simp_all)
          (hdisp _ (by simp [valuationKeys])) hvknot⟩
    · exact ⟨"P/S", by simp [valuationKeys],
        not_mem_t3_of _ "P/S" (fun c hc => by
          rcases valuationRename_eq hc with h | h | h | h | h | h | h <;> simp_all)
          (hdisp _ (by simp [valuationKeys])) hvknot⟩
    · exact ⟨"P/B", by simp [valuationKeys],
        not_mem_t3_of _ "P/B" (fun c hc => by
          rcases valuationRename_eq hc with h | h | h | h | h | h | h <;> simp_all)
          (hdisp _ (by simp [valuationKeys])) hvknot⟩
    · exact ⟨"EV/EBITDA", by simp [valuationKeys],
        not_mem_t3_of _ "EV/EBITDA" (fun c hc => by
          rcases valuationRename_eq hc with h | h | h | h | h | h | h <;> simp_all)
          (hdisp _ (by simp [valuationKeys])) hvknot⟩
    · exact ⟨"EV/Revenue", by simp [valuationKeys],
        not_mem_t3_of _ "EV/Revenue" (fun c hc => by
          rcases valuationRename_eq hc with h | h | h | h | h | h | h <;> simp_all)
          (hdisp _ (by simp [valuationKeys])) hvknot⟩
  · intro df hAs hv
    have hcont : df.colNames.contains "asOfDate" = true := by simpa using hAs
    unfold build_valuation
    rw [if_pos hcont]
    apply select_map_ok
    intro dk hdk
    rw [rename_colNames, dropCols_colNames]
    simp only [valuationKeys, List.mem_cons, List.not_mem_nil, or_false] at hdk
    rcases hdk with rfl | rfl | rfl | rfl | rfl | rfl
    · exact List.mem_map.mpr ⟨"PeRatio",
        List.mem_filter.mpr ⟨hv _ (by simp [vendorValuationKeys]), rfl⟩, rfl⟩
    · exact List.mem_map.mpr ⟨"ForwardPeRatio",
        List.mem_filter.mpr ⟨hv _ (by simp [vendorValuationKeys]), rfl⟩, rfl⟩
    · exact List.mem_map.mpr ⟨"PsRatio",
        List.mem_filter.mpr ⟨hv _ (by simp [vendorValuationKeys]), rfl⟩, rfl⟩
    · exact List.mem_map.mpr ⟨"PbRatio",
        List.mem_filter.mpr ⟨hv _ (by simp [vendorValuationKeys]), rfl⟩, rfl⟩
    · exact List.mem_map.mpr ⟨"EnterprisesValueEBITDARatio",
        List.mem_filter.mpr ⟨hv _ (by simp [vendorValuationKeys]), rfl⟩, rfl⟩
    · exact List.mem_map.mpr ⟨"EnterprisesValueRevenueRatio",
        List.mem_filter.mpr ⟨hv _ (by simp [vendorValuationKeys]), rfl⟩, rfl⟩

/-- C2, witness: an income table missing NetIncome errors; the same table
shape with all columns present but a null value succeeds. -/
theorem C2_witness :
    (∃ k, extract_income_stmt_metrics exIncomeMissing = .error (.missingField k)) ∧
    (∃ t, extract_income_stmt_metrics exIncomeNullRow = .ok t) :=
  ⟨C2_missing_field.1 exIncomeMissing ⟨"NetIncome", by decide, by decide⟩,
   C2_missing_field.2.1 exIncomeNullRow (by decide)⟩

/-- C6, counterexample to the claim as stated: a raw valuation table whose
as-of dates are in descending order produces a date index
["2023-06-30", "2022-06-30"], which is not sorted — the builder never
sorts its index. -/
theorem C6_counterexample :
    (build_valuation exValuation).map Table.labels =
      .ok ["2023-06-30", "2022-06-30"] ∧
    (build_valuation exValuation).map (fun t => decide (t.sortIndex = t)) =
      .ok false :=
  ⟨by decide, by decide⟩

/-- C6, amended: every successful valuation build has exactly the six
display columns in order, every retained cell a fixed point of 2-decimal
rounding and non-null, and a date index of YYYY-MM-DD strings drawn, in
input row order (not sorted), from the as-of timestamp column. -/
theorem C6_valuation_shape :
    (∀ df out : Table, build_valuation df = .ok out →
        out.colNames = valuationKeys ∧
        out.rows.map (fun r => r.2.map Val.round2) = out.rows.map Prod.snd ∧
        (out.rows.all (fun r => !(r.2.any Val.isNA))) = true ∧
        List.Sublist out.labels (reindexByDate df).labels) ∧
    (build_valuation exValuation).map Table.colNames = .ok valuationKeys :=
  ⟨fun _ _ h => build_valuation_ok_elim h, rfl⟩

/-- C6, witness for the amended theorem at the example table. -/
theorem C6_witness :
    exValuationOut.colNames = valuationKeys ∧
    exValuationOut.rows.map (fun r => r.2.map Val.round2) =
      exValuationOut.rows.map Prod.snd ∧
    (exValuationOut.rows.all (fun r => !(r.2.any Val.isNA))) = true ∧
    List.Sublist exValuationOut.labels (reindexByDate exValuation).labels :=
  C6_valuation_shape.1 exValuation exValuationOut rfl

/-- C10: the humanized fundamentals columns keep the growth engine's unit
dispatch — the four margin columns still end in "Margin" after
humanization, so compute_growth classifies them as basis-point columns and
every other fundamentals column as a percent column. -/
theorem C10_margin_dispatch :
    (∀ it ct bt out : Table, build_fundamentals it ct bt = .ok out →
        out.colNames = fundamentalsCols ∧
        ∀ p, (compute_growth out p).colNames =
          ["Total Revenue Growth (%)", "Gross Profit Growth (%)",
           "Operating Income Growth (%)", "Net Income Growth (%)",
           "Free Cash Flow Growth (%)", "Capital Expenditure Growth (%)",
           "Stock Based Compensation Growth (%)", "Cash Growth (%)",
           "Total Debt Growth (%)", "Debt To Cash Growth (%)",
           "Gross Margin Change (bps)", "Operating Margin Change (bps)",
           "Net Margin Change (bps)", "Free Cash Flow Margin Change (bps)"]) ∧
    (strEndsWith "Gross Margin" "Margin" = true ∧
     strEndsWith "Operating Margin" "Margin" = true ∧
     strEndsWith "Net Margin" "Margin" = true ∧
     strEndsWith "Free Cash Flow Margin" "Margin" = true ∧
     strEndsWith "Total Revenue" "Margin" = false ∧
     strEndsWith "Debt To Cash" "Margin" = false) := by
  refine ⟨?_, by decide⟩
  intro it ct bt out h
  obtain ⟨i, c, b, hi, hc, hb, rfl⟩ := build_fundamentals_elim h
  have hcols := assembleFundamentals_colNames (extract_income_colNames hi)
    (extract_cashflow_colNames hc) (extract_balance_colNames hb)
  refine ⟨hcols, fun p => ?_⟩
  rw [compute_growth_colNames, hcols]
  rfl

/-- C10, witness at the example tables. -/
theorem C10_witness :
    exFund.colNames = fundamentalsCols ∧
    (compute_growth exFund 1).colNames =
      ["Total Revenue Growth (%)", "Gross Profit Growth (%)",
       "Operating Income Growth (%)", "Net Income Growth (%)",
       "Free Cash Flow Growth (%)", "Capital Expenditure Growth (%)",
       "Stock Based Compensation Growth (%)", "Cash Growth (%)",
       "Total Debt Growth (%)", "Debt To Cash Growth (%)",
       "Gross Margin Change (bps)", "Operating Margin Change (bps)",
       "Net Margin Change (bps)", "Free Cash Flow Margin Change (bps)"] :=
  ⟨(C10_margin_dispatch.1 exIncome exCashflow exBalance exFund rfl).1,
   (C10_margin_dispatch.1 exIncome exCashflow exBalance exFund rfl).2 1⟩

end PyStocks
